import Mathlib

/-!
Shallow embedding of `tools/analyze-vtable-impact.py`.

The script scans C sources for `&identifier` function-pointer references
(grep + `re.finditer`), extracts defined text symbols and their sizes from
`nm -S` output, builds a call graph by disassembling each symbol with
objdump and regex-matching direct-call instructions, computes BFS
reachability from `main` and from each referenced symbol, and ranks
candidate pointers by total reachable bytes.

External process outputs are modelled as explicit inputs:
* grep output as pre-parsed `(file, line, content)` records (the script
  splits `file:line:content` on the first two colons and relativizes the
  path; that parsing is not at issue in any claim);
* `nm` output as whitespace-split token lines (Python `line.split()`);
* objdump output as an `Option String` per symbol, where `none` models the
  `except:` path taken when the subprocess fails, exits nonzero
  (`check=True`) or exceeds the `timeout=5` limit.
-/

set_option maxRecDepth 8192

/-! ## Character classes used by the regexes (ASCII, as in the patterns) -/

/-- Char class `[a-z]` (ASCII 97-122). -/
def isLowerCh (c : Char) : Bool := 97 ≤ c.toNat && c.toNat ≤ 122

/-- Char class `[A-Z]` (ASCII 65-90). -/
def isUpperCh (c : Char) : Bool := 65 ≤ c.toNat && c.toNat ≤ 90

/-- Char class `[0-9]` (ASCII 48-57). -/
def isDigitCh (c : Char) : Bool := 48 ≤ c.toNat && c.toNat ≤ 57

/-- ASCII letter `[a-zA-Z]`. -/
def isAlphaCh (c : Char) : Bool := isLowerCh c || isUpperCh c

/-- Char class `[a-zA-Z_]`, first character of the identifier regex
(95 is the code of the underscore). -/
def isIdentStartCh (c : Char) : Bool := isAlphaCh c || c.toNat == 95

/-- Char class `[a-zA-Z0-9_]`, continuation character of the identifier regex. -/
def isIdentContCh (c : Char) : Bool := isIdentStartCh c || isDigitCh c

/-- Python regex `\s` restricted to ASCII: space, tab, newline, carriage
return, vertical tab, form feed (objdump output is ASCII). -/
def isWsCh (c : Char) : Bool :=
  c == ' ' || c == '\t' || c == '\n' || c == '\r' || c.toNat == 11 || c.toNat == 12

/-- Char class `[0-9a-f]` of the call-address regex. -/
def isHexLowCh (c : Char) : Bool := isDigitCh c || (97 ≤ c.toNat && c.toNat ≤ 102)

/-- Char class `[^@>]` capturing the call-target name. -/
def isTargetCh (c : Char) : Bool := !(c == '@' || c == '>')

/-- Greedy scan of a character class: longest prefix whose characters all
satisfy `p`, paired with the remaining characters. -/
def takeWhileCh (p : Char → Bool) : List Char → List Char × List Char
  | [] => ([], [])
  | c :: cs =>
    if p c then
      let q := takeWhileCh p cs
      (c :: q.1, q.2)
    else ([], c :: cs)

/-! ## PointerReferenceScanner: `find_function_pointers` -/

/-- One line of grep output, already split into `file:line:content`
(`line.split(':', 2)` in the script) with the path made relative. -/
structure GrepLine where
  file : String
  lineNum : Nat
  content : String
deriving DecidableEq

/-- Left-to-right scan state of `re.finditer(r'&([a-zA-Z_][a-zA-Z0-9_]+)', content)`:
either outside any match attempt, just after an `&`, or inside a potential
identifier whose characters are held in reverse. -/
inductive ScanState
  | plain
  | amp
  | ident (revChars : List Char)

/-- One step per character model of `re.finditer` for the pattern
`&([a-zA-Z_][a-zA-Z0-9_]+)`: leftmost, non-overlapping matches, where the
`+` makes an identifier need a start character plus at least one
continuation character (total length at least 2).  A match is emitted when
the identifier can no longer be extended; on failure the scan resumes one
character after the failed position, exactly as the regex engine does. -/
def scanAux : ScanState → List Char → List String
  | .plain, [] => []
  | .amp, [] => []
  | .ident rev, [] => if 2 ≤ rev.length then [String.mk rev.reverse] else []
  | .plain, c :: cs => if c == '&' then scanAux .amp cs else scanAux .plain cs
  | .amp, c :: cs =>
    if isIdentStartCh c then scanAux (.ident [c]) cs
    else if c == '&' then scanAux .amp cs
    else scanAux .plain cs
  | .ident rev, c :: cs =>
    if isIdentContCh c then scanAux (.ident (c :: rev)) cs
    else if 2 ≤ rev.length then
      String.mk rev.reverse :: (if c == '&' then scanAux .amp cs else scanAux .plain cs)
    else if c == '&' then scanAux .amp cs
    else scanAux .plain cs

/-- All identifiers matched by `re.finditer(r'&([a-zA-Z_][a-zA-Z0-9_]+)', content)`
on one content line, in order. -/
def scanRefs (cs : List Char) : List String := scanAux .plain cs

/-- Python `str.isupper()` on the ASCII identifiers the regex produces:
true when the string has at least one cased character and no cased
character is lower case (ASCII cased characters are exactly the letters). -/
def pyIsupper (s : String) : Bool :=
  s.data.any isAlphaCh && s.data.all (fun c => !isLowerCh c)

/-- Model of `function_refs[func_name].append((file, line))` on a
`defaultdict(list)`: appends the location under the key, creating the key
at the end on first use (dict insertion order). -/
def addRef (refs : List (String × List (String × Nat))) (name : String)
    (loc : String × Nat) : List (String × List (String × Nat)) :=
  match refs with
  | [] => [(name, [loc])]
  | (n, ls) :: rest =>
    if n == name then (n, ls ++ [loc]) :: rest else (n, ls) :: addRef rest name loc

/-- Processing of one grep output line: every regex match on the content is
recorded unless `func_name.isupper()` holds (the ALL_CAPS filter). -/
def scanGrepLine (refs : List (String × List (String × Nat))) (l : GrepLine) :
    List (String × List (String × Nat)) :=
  (scanRefs l.content.data).foldl
    (fun refs name =>
      if pyIsupper name then refs else addRef refs name (l.file, l.lineNum))
    refs

/-- Model of `find_function_pointers`: fold of the per-line processing over the grep
output lines, in the order grep produced them. -/
def find_function_pointers (lines : List GrepLine) :
    List (String × List (String × Nat)) :=
  lines.foldl scanGrepLine []

/-- Locations recorded for one identifier (`function_refs[name]`, empty
list when the key is absent). -/
def lookupRefs (refs : List (String × List (String × Nat))) (name : String) :
    List (String × Nat) :=
  match refs with
  | [] => []
  | (n, ls) :: rest => if n == name then ls else lookupRefs rest name

/-- Locations of `name` in grep-output order: one `(file, line)` entry per
kept regex match of `name`, following the input line order.  Used to state
what order `find_function_pointers` actually emits. -/
def grepOrderOccurrences (name : String) (lines : List GrepLine) :
    List (String × Nat) :=
  lines.flatMap (fun l =>
    ((scanRefs l.content.data).filter (fun n => n == name && !pyIsupper n)).map
      (fun _ => (l.file, l.lineNum)))

/-- Predicate of the spec sentence: every character of the identifier is an
upper-case ASCII letter, digit, or underscore (code 95). -/
def specAllUpperDigitUnderscore (s : String) : Bool :=
  s.data.all (fun c => isUpperCh c || isDigitCh c || c.toNat == 95)

/-- Predicate used to compare the spec filter with the code filter: the
identifier contains at least one ASCII letter. -/
def specHasLetter (s : String) : Bool := s.data.any isAlphaCh

/-! ## SymbolCatalog: `get_all_symbols` -/

/-- Value of one hex digit, as accepted by Python `int(s, 16)`. -/
def hexDigitVal (c : Char) : Option Nat :=
  if 48 ≤ c.toNat && c.toNat ≤ 57 then some (c.toNat - 48)
  else if 97 ≤ c.toNat && c.toNat ≤ 102 then some (c.toNat - 97 + 10)
  else if 65 ≤ c.toNat && c.toNat ≤ 70 then some (c.toNat - 65 + 10)
  else none

/-- Python `int(s, 16)` on the plain hex-digit tokens `nm` emits
(`none` models the `ValueError` branch: empty string or a non-hex-digit
character; signs, `0x` prefixes and underscores never occur in `nm`
address/size fields). -/
def parseHex (s : String) : Option Nat :=
  if s.data.isEmpty then none
  else
    s.data.foldl
      (fun acc c =>
        match acc, hexDigitVal c with
        | some a, some d => some (a * 16 + d)
        | _, _ => none)
      (some 0)

/-- Python dict assignment `symbols[name] = size`: updates the value in
place when the key exists, otherwise appends the key at the end. -/
def dictSet (d : List (String × Nat)) (k : String) (v : Nat) :
    List (String × Nat) :=
  match d with
  | [] => [(k, v)]
  | (n, w) :: rest => if n == k then (n, v) :: rest else (n, w) :: dictSet rest k v

/-- Model of `get_all_symbols`: parse the whitespace-split `nm -S --defined-only`
output lines.  A 4-or-more token line `address size type name` with type
`T`/`t` records the parsed size (a `ValueError` skips the line); a 3 token
line `address type name` with type `T`/`t` records the default size 1. -/
def get_all_symbols (lines : List (List String)) : List (String × Nat) :=
  lines.foldl
    (fun symbols parts =>
      if 4 ≤ parts.length && (parts.getD 2 "" == "T" || parts.getD 2 "" == "t") then
        match parseHex (parts.getD 1 "") with
        | some size => dictSet symbols (parts.getD 3 "") size
        | none => symbols
      else if parts.length == 3 && (parts.getD 1 "" == "T" || parts.getD 1 "" == "t") then
        dictSet symbols (parts.getD 2 "") 1
      else symbols)
    []

/-- Model of `symbols_with_size.get(f, 0)`. -/
def lookupD (d : List (String × Nat)) (k : String) (dflt : Nat) : Nat :=
  match d with
  | [] => dflt
  | (n, v) :: rest => if n == k then v else lookupD rest k dflt

/-- Model of `has_sizes = any(symbols_with_size.get(f, 0) > 1 for f in symbols_with_size)`:
the report switches from unknown-size mode to byte mode exactly when some
recorded size exceeds 1. -/
def has_sizes (symbols : List (String × Nat)) : Bool :=
  symbols.any (fun p => decide (1 < p.2))

/-! ## DisassemblyCallExtractor: `get_calls_from_function` -/

/-- Match of `callq?\s+[0-9a-f]+\s+<([^@>]+)` anchored at the start of the
character list, returning the captured group.  The character classes of
consecutive pieces are disjoint, so the greedy runs are committed: literal
`call`, an optional `q` (a present `q` not followed by whitespace fails
both with and without consuming it), one or more whitespace characters,
one or more `[0-9a-f]`, one or more whitespace characters, `<`, then the
capture: one or more characters other than `@` and `>`. -/
def matchCallAt : List Char → Option String
  | 'c' :: 'a' :: 'l' :: 'l' :: rest =>
    let rest1 := match rest with
      | 'q' :: r => r
      | r => r
    let p1 := takeWhileCh isWsCh rest1
    if p1.1.isEmpty then none
    else
      let p2 := takeWhileCh isHexLowCh p1.2
      if p2.1.isEmpty then none
      else
        let p3 := takeWhileCh isWsCh p2.2
        if p3.1.isEmpty then none
        else
          match p3.2 with
          | '<' :: after =>
            let p4 := takeWhileCh isTargetCh after
            if p4.1.isEmpty then none else some (String.mk p4.1)
          | _ => none
  | _ => none

/-- Model of `re.search(r'callq?\s+[0-9a-f]+\s+<([^@>]+)', line)`: leftmost match,
trying each start position from the left. -/
def searchCallTarget : List Char → Option String
  | [] => none
  | c :: rest =>
    match matchCallAt (c :: rest) with
    | some s => some s
    | none => searchCallTarget rest

/-- Python `out.split('\n')` at the character level: split on each newline,
keeping empty pieces. -/
def splitLinesAux (acc : List Char) : List Char → List (List Char)
  | [] => [acc.reverse]
  | c :: cs =>
    if c == '\n' then acc.reverse :: splitLinesAux [] cs
    else splitLinesAux (c :: acc) cs

/-- Model of `result.stdout.split('\n')` of the disassembly text. -/
def splitLines (cs : List Char) : List (List Char) := splitLinesAux [] cs

/-- Model of `calls.add(called)` on a Python set, as a duplicate-free list. -/
def setAdd (s : List String) (x : String) : List String :=
  if s.contains x then s else s ++ [x]

/-- Model of `get_calls_from_function`: on a successful disassembly, scan each
output line for a call instruction and keep the target when it is a known
symbol other than the function itself; on any subprocess failure or
timeout (`disasmOut = none`) return the empty set — the bare `except:`
branch, which emits nothing. -/
def get_calls_from_function (func_name : String) (symbols : List String)
    (disasmOut : Option String) : List String :=
  match disasmOut with
  | none => []
  | some out =>
    (splitLines out.data).foldl
      (fun calls line =>
        match searchCallTarget line with
        | some called =>
          if symbols.contains called && called != func_name then setAdd calls called
          else calls
        | none => calls)
      []

/-- Model of `build_call_graph`: one `get_calls_from_function` result per symbol
(Python iterates the symbol set; the resulting dict is the same mapping in
any order), paired with the messages the loop writes to stderr — a header,
a progress line every 100 symbols, and a completion line.  No message
depends on the disassembly results. -/
def build_call_graph (symbols : List String) (disasm : String → Option String) :
    List (String × List String) × List String :=
  let n := symbols.length
  let entries := symbols.map
    (fun func => (func, get_calls_from_function func symbols (disasm func)))
  let progress := (List.range n).filterMap
    (fun i =>
      if i % 100 == 0 then
        some ("  Progress: " ++ toString i ++ "/" ++ toString n ++ " functions analyzed")
      else none)
  (entries,
    "Building call graph (this may take a minute)..." ::
      progress ++ ["  Complete: " ++ toString n ++ " functions analyzed"])

/-! ## ReachabilityEngine: `calculate_reachable_from` -/

/-- Model of `call_graph.get(current, set())`: outgoing call list of a symbol,
empty when the symbol has no entry. -/
def graphGet (cg : List (String × List String)) (k : String) : List String :=
  match cg with
  | [] => []
  | (n, v) :: rest => if n == k then v else graphGet rest k

/-- Every name occurring as a callee anywhere in the graph. -/
def callUniv (cg : List (String × List String)) : Finset String :=
  (cg.flatMap Prod.snd).toFinset

/-- One BFS loop of `calculate_reachable_from`, structurally recursive on a
fuel argument: pop the queue head; skip it when already reached, otherwise
add it and enqueue its not-yet-reached callees.  The fuel passed by
`calculate_reachable_from` dominates the loop's termination measure, so
the fuel-exhaustion branch is never taken (`bfsFuel_spec` is proved under
that bound). -/
def bfsFuel (cg : List (String × List String)) :
    Nat → Finset String → List String → Finset String
  | _, reachable, [] => reachable
  | 0, reachable, _ :: _ => reachable
  | fuel + 1, reachable, current :: rest =>
    if current ∈ reachable then bfsFuel cg fuel reachable rest
    else
      let reached := insert current reachable
      bfsFuel cg fuel reached
        (rest ++ (graphGet cg current).filter (fun c => decide (c ∉ reached)))

/-- Model of `calculate_reachable_from`: BFS from `func` over the call graph with a
visited set; the initial fuel `|univ| * K + 1` bounds the total number of
loop iterations (each visit of a new node costs at most `K` queue entries). -/
def calculate_reachable_from (func : String)
    (cg : List (String × List String)) : Finset String :=
  bfsFuel cg
    ((insert func (callUniv cg)).card * ((cg.flatMap Prod.snd).length + 1) + 1)
    ∅ [func]

/-! ## ImpactRanker: `analyze_impact` -/

/-- One entry of the `impacts` list built by `analyze_impact`. -/
structure Impact where
  function : String
  reachable_count : Nat
  total_bytes : Nat
  references : List (String × Nat)
deriving DecidableEq

/-- Insertion of one element into a list already sorted by `total_bytes`
descending, placed after earlier elements with an equal key — the unique
stable order, hence the same list `impacts.sort(key=..., reverse=True)`
produces. -/
def insertByBytes (x : Impact) : List Impact → List Impact
  | [] => [x]
  | y :: ys =>
    if y.total_bytes < x.total_bytes then x :: y :: ys else y :: insertByBytes x ys

/-- Model of `impacts.sort(key=lambda x: x['total_bytes'], reverse=True)`: stable
sort by `total_bytes` descending. -/
def sortImpacts (l : List Impact) : List Impact :=
  l.foldl (fun acc x => insertByBytes x acc) []

/-- The candidate loop and sort of `analyze_impact`: for each referenced
identifier (in dict order), when it is a catalog symbol and not reachable
from `main`, append an impact record holding its own reachable set size,
total bytes, and reference list; finally sort by bytes descending. -/
def analyze_impact_impacts (func_refs : List (String × List (String × Nat)))
    (symbols_with_size : List (String × Nat))
    (disasm : String → Option String) : List Impact :=
  let symbols := symbols_with_size.map Prod.fst
  let call_graph := (build_call_graph symbols disasm).1
  let reachable_from_main := calculate_reachable_from "main" call_graph
  let impacts := func_refs.foldl
    (fun acc p =>
      if symbols.contains p.1 && decide (p.1 ∉ reachable_from_main) then
        let reachable := calculate_reachable_from p.1 call_graph
        acc ++ [{ function := p.1
                  reachable_count := reachable.card
                  total_bytes := Finset.sum reachable (fun f => lookupD symbols_with_size f 0)
                  references := p.2 }]
      else acc)
    []
  sortImpacts impacts

/-! ## Demo inputs (spec §8 scenario 1, extended with a second candidate) -/

/-- Disassembly oracle giving the call edges `main → A` and `B → C`. -/
def demoDisasm : String → Option String :=
  fun s =>
    if s == "main" then some "call 1 <A>"
    else if s == "B" then some "call 1 <C>"
    else some ""

/-- Symbol catalog of the demo scenario. -/
def demoSizes : List (String × Nat) :=
  [("main", 100), ("A", 50), ("B", 30), ("C", 20), ("D", 5)]

/-- References of the demo scenario: pointers to `B` and `D`. -/
def demoRefs : List (String × List (String × Nat)) :=
  [("B", [("x.c", 3)]), ("D", [("y.c", 4)])]

/-! ## General helper lemmas -/

theorem bool_eq_of_iff {a b : Bool} (h : a = true ↔ b = true) : a = b := by
  cases a <;> cases b <;> simp_all

theorem string_contains_iff (l : List String) (a : String) :
    l.contains a = true ↔ a ∈ l :=
  List.elem_iff

/-! ## Scanner lemmas -/

theorem scanAux_sound (cs : List Char) :
    ∀ (st : ScanState), (∀ rev, st = ScanState.ident rev → rev.all isIdentContCh = true) →
      ∀ name ∈ scanAux st cs, 2 ≤ name.length ∧ name.data.all isIdentContCh = true := by
  induction cs with
  | nil =>
    intro st hst name hname
    cases st with
    | plain => simp [scanAux] at hname
    | amp => simp [scanAux] at hname
    | ident rev =>
      simp only [scanAux] at hname
      by_cases h2 : 2 ≤ rev.length
      · rw [if_pos h2] at hname
        simp only [List.mem_singleton] at hname
        subst hname
        constructor
        · show 2 ≤ rev.reverse.length
          simpa using h2
        · show rev.reverse.all isIdentContCh = true
          simpa using hst rev rfl
      · rw [if_neg h2] at hname
        simp at hname
  | cons c cs ih =>
    intro st hst name hname
    cases st with
    | plain =>
      simp only [scanAux] at hname
      by_cases hc : (c == '&') = true
      · rw [if_pos hc] at hname
        exact ih ScanState.amp (fun rev h => nomatch h) name hname
      · rw [if_neg hc] at hname
        exact ih ScanState.plain (fun rev h => nomatch h) name hname
    | amp =>
      simp only [scanAux] at hname
      by_cases hs : isIdentStartCh c = true
      · rw [if_pos hs] at hname
        refine ih (ScanState.ident [c]) ?_ name hname
        intro rev h
        cases h
        simp [isIdentContCh, hs]
      · rw [if_neg hs] at hname
        by_cases hc : (c == '&') = true
        · rw [if_pos hc] at hname
          exact ih ScanState.amp (fun rev h => nomatch h) name hname
        · rw [if_neg hc] at hname
          exact ih ScanState.plain (fun rev h => nomatch h) name hname
    | ident rev =>
      have hrev : rev.all isIdentContCh = true := hst rev rfl
      simp only [scanAux] at hname
      by_cases hcont : isIdentContCh c = true
      · rw [if_pos hcont] at hname
        refine ih (ScanState.ident (c :: rev)) ?_ name hname
        intro rev2 h
        cases h
        simp [List.all_cons, hcont, hrev]
      · rw [if_neg hcont] at hname
        by_cases h2 : 2 ≤ rev.length
        · rw [if_pos h2] at hname
          rcases List.mem_cons.1 hname with heq | htail
          · subst heq
            constructor
            · show 2 ≤ rev.reverse.length
              simpa using h2
            · show rev.reverse.all isIdentContCh = true
              simpa using hrev
          · by_cases hc : (c == '&') = true
            · rw [if_pos hc] at htail
              exact ih ScanState.amp (fun r h => nomatch h) name htail
            · rw [if_neg hc] at htail
              exact ih ScanState.plain (fun r h => nomatch h) name htail
        · rw [if_neg h2] at hname
          by_cases hc : (c == '&') = true
          · rw [if_pos hc] at hname
            exact ih ScanState.amp (fun r h => nomatch h) name hname
          · rw [if_neg hc] at hname
            exact ih ScanState.plain (fun r h => nomatch h) name hname

theorem scanRefs_sound (cs : List Char) :
    ∀ name ∈ scanRefs cs, 2 ≤ name.length ∧ name.data.all isIdentContCh = true :=
  scanAux_sound cs ScanState.plain (fun _ h => nomatch h)

/-! ## Filter lemmas: `str.isupper` versus the spec predicate -/

theorem identCont_not_lower (c : Char) (h : isIdentContCh c = true) :
    (!isLowerCh c) = (isUpperCh c || isDigitCh c || c.toNat == 95) := by
  apply bool_eq_of_iff
  simp only [isIdentContCh, isIdentStartCh, isAlphaCh, isLowerCh, isUpperCh, isDigitCh,
    Bool.or_eq_true, Bool.and_eq_true, decide_eq_true_eq, beq_iff_eq,
    Bool.not_eq_true', Bool.and_eq_false_iff, decide_eq_false_iff_not] at h ⊢
  omega

theorem spec_char_not_lower (c : Char)
    (h : (isUpperCh c || isDigitCh c || c.toNat == 95) = true) :
    (!isLowerCh c) = true := by
  simp only [isLowerCh, isUpperCh, isDigitCh, Bool.or_eq_true, Bool.and_eq_true,
    decide_eq_true_eq, beq_iff_eq, Bool.not_eq_true', Bool.and_eq_false_iff,
    decide_eq_false_iff_not] at h ⊢
  omega

theorem pyIsupper_eq_spec (s : String) (h : s.data.all isIdentContCh = true) :
    pyIsupper s = (specAllUpperDigitUnderscore s && specHasLetter s) := by
  apply bool_eq_of_iff
  simp only [List.all_eq_true] at h
  simp only [pyIsupper, specAllUpperDigitUnderscore, specHasLetter, Bool.and_eq_true,
    List.all_eq_true, List.any_eq_true]
  constructor
  · rintro ⟨hany, hall⟩
    refine ⟨fun c hc => ?_, hany⟩
    rw [← identCont_not_lower c (h c hc)]
    exact hall c hc
  · rintro ⟨hall, hany⟩
    refine ⟨hany, fun c hc => ?_⟩
    rw [identCont_not_lower c (h c hc)]
    exact hall c hc

theorem spec_implies_pyIsupper (s : String)
    (h1 : specAllUpperDigitUnderscore s = true) (h2 : specHasLetter s = true) :
    pyIsupper s = true := by
  simp only [specAllUpperDigitUnderscore, specHasLetter, List.all_eq_true,
    List.any_eq_true] at h1 h2
  simp only [pyIsupper, Bool.and_eq_true, List.all_eq_true, List.any_eq_true]
  exact ⟨h2, fun c hc => spec_char_not_lower c (h1 c hc)⟩

/-! ## Reference-dictionary lemmas -/

theorem lookupRefs_addRef (refs : List (String × List (String × Nat)))
    (n : String) (loc : String × Nat) (m : String) :
    lookupRefs (addRef refs n loc) m =
      if n == m then lookupRefs refs m ++ [loc] else lookupRefs refs m := by
  induction refs with
  | nil =>
    by_cases h : n = m
    · subst h; simp [addRef, lookupRefs]
    · simp [addRef, lookupRefs, beq_iff_eq, h]
  | cons p rest ih =>
    obtain ⟨k, ls⟩ := p
    by_cases hkn : k = n
    · subst hkn
      by_cases hkm : k = m
      · subst hkm; simp [addRef, lookupRefs]
      · simp [addRef, lookupRefs, beq_iff_eq, hkm]
    · by_cases hkm : k = m
      · subst hkm
        have hnm : ¬(n = k) := fun h => hkn h.symm
        simp [addRef, lookupRefs, beq_iff_eq, hkn, hnm]
      · simp [addRef, lookupRefs, beq_iff_eq, hkn, hkm, ih]

theorem mem_addRef (refs : List (String × List (String × Nat)))
    (n : String) (loc : String × Nat) (p : String × List (String × Nat)) :
    p ∈ addRef refs n loc → p ∈ refs ∨ p.1 = n := by
  induction refs with
  | nil =>
    intro h
    simp [addRef] at h
    subst h
    exact Or.inr rfl
  | cons q rest ih =>
    obtain ⟨k, ls⟩ := q
    intro h
    by_cases hk : k = n
    · subst hk
      simp [addRef] at h
      rcases h with h | h
      · subst h; exact Or.inr rfl
      · exact Or.inl (List.mem_cons_of_mem _ h)
    · simp [addRef, beq_iff_eq, hk] at h
      rcases h with h | h
      · subst h; exact Or.inl (List.mem_cons_self _ _)
      · rcases ih h with h2 | h2
        · exact Or.inl (List.mem_cons_of_mem _ h2)
        · exact Or.inr h2

theorem lookupRefs_scanNames (loc : String × Nat) (name : String) :
    ∀ (names : List String) (refs : List (String × List (String × Nat))),
      lookupRefs
          (names.foldl
            (fun refs n => if pyIsupper n then refs else addRef refs n loc) refs)
          name
        = lookupRefs refs name ++
            (names.filter (fun n => n == name && !pyIsupper n)).map (fun _ => loc) := by
  intro names
  induction names with
  | nil => intro refs; simp
  | cons n rest ih =>
    intro refs
    by_cases hup : pyIsupper n = true
    · simp only [List.foldl_cons, if_pos hup, List.filter_cons]
      have hpred : (n == name && !pyIsupper n) = false := by
        simp [hup]
      rw [hpred]
      simp only [Bool.false_eq_true, if_false]
      exact ih refs
    · simp only [List.foldl_cons, if_neg hup, List.filter_cons]
      rw [ih (addRef refs n loc), lookupRefs_addRef]
      by_cases hn : n = name
      · subst hn
        have hpred : (n == n && !pyIsupper n) = true := by
          simp [hup]
        rw [hpred]
        simp [List.append_assoc]
      · have hne : (n == name) = false := by simp [hn]
        rw [hne]
        simp

theorem lookupRefs_scanGrepLine (refs : List (String × List (String × Nat)))
    (l : GrepLine) (name : String) :
    lookupRefs (scanGrepLine refs l) name
      = lookupRefs refs name ++
          ((scanRefs l.content.data).filter (fun n => n == name && !pyIsupper n)).map
            (fun _ => (l.file, l.lineNum)) := by
  exact lookupRefs_scanNames (l.file, l.lineNum) name (scanRefs l.content.data) refs

theorem lookupRefs_foldl_lines (name : String) :
    ∀ (lines : List GrepLine) (refs : List (String × List (String × Nat))),
      lookupRefs (lines.foldl scanGrepLine refs) name
        = lookupRefs refs name ++ grepOrderOccurrences name lines := by
  intro lines
  induction lines with
  | nil => intro refs; simp [grepOrderOccurrences]
  | cons l rest ih =>
    intro refs
    simp only [List.foldl_cons]
    rw [ih (scanGrepLine refs l), lookupRefs_scanGrepLine]
    simp [grepOrderOccurrences, List.append_assoc]

theorem lookupRefs_ffp (lines : List GrepLine) (name : String) :
    lookupRefs (find_function_pointers lines) name = grepOrderOccurrences name lines := by
  have h := lookupRefs_foldl_lines name lines []
  simpa [find_function_pointers, lookupRefs] using h

/-! ## Key well-formedness of the reference dictionary -/

theorem addRef_keys_sub (refs : List (String × List (String × Nat)))
    (n : String) (loc : String × Nat) (q : String) :
    q ∈ (addRef refs n loc).map Prod.fst → q ∈ refs.map Prod.fst ∨ q = n := by
  intro h
  rcases List.mem_map.1 h with ⟨p, hp, hq⟩
  rcases mem_addRef refs n loc p hp with h2 | h2
  · exact Or.inl (hq ▸ List.mem_map_of_mem Prod.fst h2)
  · exact Or.inr (hq ▸ h2 ▸ rfl)

theorem addRef_keys_nodup (refs : List (String × List (String × Nat)))
    (n : String) (loc : String × Nat)
    (h : (refs.map Prod.fst).Nodup) : ((addRef refs n loc).map Prod.fst).Nodup := by
  induction refs with
  | nil => simp [addRef]
  | cons p rest ih =>
    obtain ⟨k, ls⟩ := p
    simp only [List.map_cons, List.nodup_cons] at h
    by_cases hk : k = n
    · subst hk
      simp only [addRef, beq_self_eq_true, if_true, List.map_cons, List.nodup_cons]
      exact h
    · have hne : (k == n) = false := by simp [hk]
      simp only [addRef, hne, Bool.false_eq_true, if_false, List.map_cons, List.nodup_cons]
      refine ⟨fun hmem => ?_, ih h.2⟩
      rcases addRef_keys_sub rest n loc k hmem with h2 | h2
      · exact h.1 h2
      · exact hk h2

theorem scanGrepLine_keys_nodup (refs : List (String × List (String × Nat))) (l : GrepLine)
    (h : (refs.map Prod.fst).Nodup) : ((scanGrepLine refs l).map Prod.fst).Nodup := by
  unfold scanGrepLine
  generalize scanRefs l.content.data = names
  induction names generalizing refs with
  | nil => exact h
  | cons n rest ih =>
    simp only [List.foldl_cons]
    by_cases hup : pyIsupper n = true
    · rw [if_pos hup]; exact ih refs h
    · rw [if_neg hup]
      exact ih (addRef refs n (l.file, l.lineNum)) (addRef_keys_nodup refs n _ h)

theorem ffp_keys_nodup (lines : List GrepLine) :
    ((find_function_pointers lines).map Prod.fst).Nodup := by
  unfold find_function_pointers
  have : ∀ (ls : List GrepLine) (refs : List (String × List (String × Nat))),
      (refs.map Prod.fst).Nodup → ((ls.foldl scanGrepLine refs).map Prod.fst).Nodup := by
    intro ls
    induction ls with
    | nil => intro refs h; exact h
    | cons l rest ih =>
      intro refs h
      exact ih (scanGrepLine refs l) (scanGrepLine_keys_nodup refs l h)
  exact this lines [] (by simp)

theorem mem_lookupRefs_of_wf (refs : List (String × List (String × Nat)))
    (h : (refs.map Prod.fst).Nodup) (name : String) (locs : List (String × Nat)) :
    (name, locs) ∈ refs → locs = lookupRefs refs name := by
  induction refs with
  | nil => intro hm; simp at hm
  | cons p rest ih =>
    obtain ⟨k, ls⟩ := p
    simp only [List.map_cons, List.nodup_cons] at h
    intro hm
    rcases List.mem_cons.1 hm with heq | htail
    · injection heq with h1 h2
      subst h1
      subst h2
      simp [lookupRefs]
    · have hk : k ≠ name := by
        intro hkeq
        subst hkeq
        exact h.1 (List.mem_map_of_mem Prod.fst htail)
      have hne : (k == name) = false := by simp [hk]
      simp only [lookupRefs, hne, Bool.false_eq_true, if_false]
      exact ih h.2 htail

theorem mem_scanNames_source (loc : String × Nat) :
    ∀ (names : List String) (refs : List (String × List (String × Nat)))
      (p : String × List (String × Nat)),
      p ∈ names.foldl (fun refs n => if pyIsupper n then refs else addRef refs n loc) refs →
      p ∈ refs ∨ (p.1 ∈ names ∧ pyIsupper p.1 = false) := by
  intro names
  induction names with
  | nil => intro refs p h; exact Or.inl h
  | cons n rest ih =>
    intro refs p h
    simp only [List.foldl_cons] at h
    by_cases hup : pyIsupper n = true
    · rw [if_pos hup] at h
      rcases ih refs p h with h2 | h2
      · exact Or.inl h2
      · exact Or.inr ⟨List.mem_cons_of_mem n h2.1, h2.2⟩
    · rw [if_neg hup] at h
      rcases ih (addRef refs n loc) p h with h2 | h2
      · rcases mem_addRef refs n loc p h2 with h3 | h3
        · exact Or.inl h3
        · refine Or.inr ⟨h3 ▸ List.mem_cons_self n rest, ?_⟩
          rw [h3]
          exact Bool.not_eq_true _ ▸ (by simpa using hup)
      · exact Or.inr ⟨List.mem_cons_of_mem n h2.1, h2.2⟩

theorem mem_ffp_source (lines : List GrepLine) (p : String × List (String × Nat)) :
    p ∈ find_function_pointers lines →
      pyIsupper p.1 = false ∧ ∃ l ∈ lines, p.1 ∈ scanRefs l.content.data := by
  have main : ∀ (ls : List GrepLine) (refs : List (String × List (String × Nat))),
      p ∈ ls.foldl scanGrepLine refs →
      p ∈ refs ∨ (pyIsupper p.1 = false ∧ ∃ l ∈ ls, p.1 ∈ scanRefs l.content.data) := by
    intro ls
    induction ls with
    | nil => intro refs h; exact Or.inl h
    | cons l rest ih =>
      intro refs h
      simp only [List.foldl_cons] at h
      rcases ih (scanGrepLine refs l) h with h2 | h2
      · unfold scanGrepLine at h2
        rcases mem_scanNames_source (l.file, l.lineNum) (scanRefs l.content.data) refs p h2
          with h3 | h3
        · exact Or.inl h3
        · exact Or.inr ⟨h3.2, l, List.mem_cons_self l rest, h3.1⟩
      · obtain ⟨hup, l2, hl2, hscan⟩ := h2
        exact Or.inr ⟨hup, l2, List.mem_cons_of_mem l hl2, hscan⟩
  intro h
  rcases main lines [] h with h2 | h2
  · simp at h2
  · exact h2

/-! ## Call-extraction lemmas -/

theorem mem_setAdd (s : List String) (x y : String) :
    y ∈ setAdd s x → y = x ∨ y ∈ s := by
  unfold setAdd
  by_cases h : s.contains x = true
  · rw [if_pos h]; exact fun hy => Or.inr hy
  · rw [if_neg h]
    intro hy
    rcases List.mem_append.1 hy with h2 | h2
    · exact Or.inr h2
    · exact Or.inl (by simpa using h2)

theorem get_calls_sound (func_name : String) (symbols : List String)
    (disasmOut : Option String) (c : String) :
    c ∈ get_calls_from_function func_name symbols disasmOut →
      symbols.contains c = true ∧ c ≠ func_name := by
  unfold get_calls_from_function
  cases disasmOut with
  | none => intro h; simp at h
  | some out =>
    have main : ∀ (ls : List (List Char)) (acc : List String),
        (∀ x ∈ acc, symbols.contains x = true ∧ x ≠ func_name) →
        ∀ x ∈ ls.foldl
            (fun calls line =>
              match searchCallTarget line with
              | some called =>
                if symbols.contains called && called != func_name then setAdd calls called
                else calls
              | none => calls)
            acc,
          symbols.contains x = true ∧ x ≠ func_name := by
      intro ls
      induction ls with
      | nil => intro acc hacc x hx; exact hacc x hx
      | cons line rest ih =>
        intro acc hacc x hx
        simp only [List.foldl_cons] at hx
        cases hsearch : searchCallTarget line with
        | none =>
          rw [hsearch] at hx
          exact ih acc hacc x hx
        | some called =>
          rw [hsearch] at hx
          dsimp only at hx
          by_cases hcond : (symbols.contains called && called != func_name) = true
          · rw [if_pos hcond] at hx
            refine ih (setAdd acc called) ?_ x hx
            intro z hz
            rcases mem_setAdd acc called z hz with h2 | h2
            · subst h2
              simp only [Bool.and_eq_true, bne_iff_ne] at hcond
              exact hcond
            · exact hacc z h2
          · rw [if_neg hcond] at hx
            exact ih acc hacc x hx
    intro h
    exact main (splitLines out.data) [] (by intro x hx; simp at hx) c h

/-! ## Call-graph lemmas -/

theorem graphGet_map (symbols : List String) (F : String → List String) (k : String) :
    graphGet (symbols.map (fun s => (s, F s))) k
      = if symbols.contains k then F k else [] := by
  induction symbols with
  | nil => simp [graphGet]
  | cons s rest ih =>
    by_cases hs : s = k
    · subst hs
      simp [graphGet, List.contains_cons]
    · have hne : (s == k) = false := by simp [hs]
      simp only [List.map_cons, graphGet, hne, Bool.false_eq_true, if_false,
        List.contains_cons]
      rw [ih]
      have hne2 : (k == s) = false := by
        rw [beq_eq_false_iff_ne]
        exact fun h => hs h.symm
      rw [hne2]
      simp

theorem build_call_graph_fst (symbols : List String) (disasm : String → Option String) :
    (build_call_graph symbols disasm).1
      = symbols.map (fun func => (func, get_calls_from_function func symbols (disasm func))) := by
  rfl

theorem graphGet_build (symbols : List String) (disasm : String → Option String) (k : String) :
    graphGet (build_call_graph symbols disasm).1 k
      = if symbols.contains k then get_calls_from_function k symbols (disasm k) else [] := by
  rw [build_call_graph_fst, graphGet_map]

theorem graphGet_mem_callUniv (cg : List (String × List String)) (k c : String) :
    c ∈ graphGet cg k → c ∈ callUniv cg := by
  induction cg with
  | nil => intro h; simp [graphGet] at h
  | cons p rest ih =>
    obtain ⟨n, v⟩ := p
    intro h
    simp only [graphGet] at h
    simp only [callUniv, List.flatMap_cons, List.toFinset_append, Finset.mem_union,
      List.mem_toFinset]
    by_cases hn : (n == k) = true
    · rw [if_pos hn] at h
      exact Or.inl h
    · rw [if_neg hn] at h
      have := ih h
      simp only [callUniv, List.mem_toFinset] at this
      exact Or.inr this

theorem graphGet_length_le (cg : List (String × List String)) (k : String) :
    (graphGet cg k).length ≤ (cg.flatMap Prod.snd).length := by
  induction cg with
  | nil => simp [graphGet]
  | cons p rest ih =>
    obtain ⟨n, v⟩ := p
    simp only [graphGet, List.flatMap_cons, List.length_append]
    by_cases hn : (n == k) = true
    · rw [if_pos hn]
      exact Nat.le_add_right _ _
    · rw [if_neg hn]
      exact ih.trans (Nat.le_add_left _ _)

/-! ## BFS lemmas -/

theorem bfsFuel_spec (cg : List (String × List String)) (univ : Finset String) (K : Nat)
    (hK : ∀ s, (graphGet cg s).length < K)
    (hU : ∀ s, ∀ c ∈ graphGet cg s, c ∈ univ) :
    ∀ (fuel : Nat) (r : Finset String) (q : List String),
      (∀ x ∈ q, x ∈ univ) → r ⊆ univ →
      (univ \ r).card * K + q.length ≤ fuel →
      (∀ s ∈ r, ∀ c ∈ graphGet cg s, c ∈ r ∨ c ∈ q) →
      r ⊆ bfsFuel cg fuel r q ∧
        (∀ x ∈ q, x ∈ bfsFuel cg fuel r q) ∧
        (∀ s ∈ bfsFuel cg fuel r q, ∀ c ∈ graphGet cg s, c ∈ bfsFuel cg fuel r q) ∧
        bfsFuel cg fuel r q ⊆ univ := by
  intro fuel
  induction fuel with
  | zero =>
    intro r q hq hr hfuel hinv
    cases q with
    | nil =>
      refine ⟨Finset.Subset.refl r, by simp, ?_, hr⟩
      intro s hs c hc
      rcases hinv s hs c hc with h | h
      · exact h
      · simp at h
    | cons x xs =>
      exfalso
      simp only [List.length_cons] at hfuel
      omega
  | succ n ih =>
    intro r q hq hr hfuel hinv
    cases q with
    | nil =>
      refine ⟨Finset.Subset.refl r, by simp, ?_, hr⟩
      intro s hs c hc
      rcases hinv s hs c hc with h | h
      · exact h
      · simp at h
    | cons current rest =>
      by_cases hcur : current ∈ r
      · have hstep : bfsFuel cg (n + 1) r (current :: rest) = bfsFuel cg n r rest := by
          simp [bfsFuel, hcur]
        rw [hstep]
        have hqr : ∀ x ∈ rest, x ∈ univ := fun x hx => hq x (List.mem_cons_of_mem _ hx)
        have hfuel2 : (univ \ r).card * K + rest.length ≤ n := by
          have h := hfuel
          simp only [List.length_cons] at h
          generalize (univ \ r).card * K = M at h ⊢
          omega
        have hinv2 : ∀ s ∈ r, ∀ c ∈ graphGet cg s, c ∈ r ∨ c ∈ rest := by
          intro s hs c hc
          rcases hinv s hs c hc with h | h
          · exact Or.inl h
          · rcases List.mem_cons.1 h with h2 | h2
            · exact Or.inl (h2 ▸ hcur)
            · exact Or.inr h2
        obtain ⟨h1, h2, h3, h4⟩ := ih r rest hqr hr hfuel2 hinv2
        refine ⟨h1, ?_, h3, h4⟩
        intro x hx
        rcases List.mem_cons.1 hx with h5 | h5
        · exact h1 (h5 ▸ hcur)
        · exact h2 x h5
      · have hcurU : current ∈ univ := hq current (List.mem_cons_self _ _)
        have hstep : bfsFuel cg (n + 1) r (current :: rest)
            = bfsFuel cg n (insert current r)
                (rest ++ (graphGet cg current).filter
                  (fun c => decide (c ∉ insert current r))) := by
          simp [bfsFuel, hcur]
        rw [hstep]
        have hqu : ∀ x ∈ rest ++ (graphGet cg current).filter
            (fun c => decide (c ∉ insert current r)), x ∈ univ := by
          intro x hx
          rcases List.mem_append.1 hx with h | h
          · exact hq x (List.mem_cons_of_mem _ h)
          · exact hU current x (List.mem_filter.1 h).1
        have hrsub : insert current r ⊆ univ := Finset.insert_subset hcurU hr
        have hcard : (univ \ insert current r).card + 1 = (univ \ r).card := by
          have hmem : current ∈ univ \ r := Finset.mem_sdiff.2 ⟨hcurU, hcur⟩
          rw [Finset.sdiff_insert, Finset.card_erase_add_one hmem]
        have hflen : ((graphGet cg current).filter
            (fun c => decide (c ∉ insert current r))).length < K :=
          lt_of_le_of_lt (List.length_filter_le _ _) (hK current)
        have hfuel2 : (univ \ insert current r).card * K
            + (rest ++ (graphGet cg current).filter
                (fun c => decide (c ∉ insert current r))).length ≤ n := by
          have h := hfuel
          simp only [List.length_cons] at h
          rw [← hcard, Nat.add_mul, one_mul] at h
          rw [List.length_append]
          generalize (univ \ insert current r).card * K = M at h ⊢
          generalize ((graphGet cg current).filter
            (fun c => decide (c ∉ insert current r))).length = F at hflen ⊢
          omega
        have hinv2 : ∀ s ∈ insert current r, ∀ c ∈ graphGet cg s,
            c ∈ insert current r ∨ c ∈ rest ++ (graphGet cg current).filter
              (fun c => decide (c ∉ insert current r)) := by
          intro s hs c hc
          rcases Finset.mem_insert.1 hs with hseq | hsr
          · subst hseq
            by_cases hcr : c ∈ insert s r
            · exact Or.inl hcr
            · exact Or.inr (List.mem_append.2 (Or.inr
                (List.mem_filter.2 ⟨hc, decide_eq_true hcr⟩)))
          · rcases hinv s hsr c hc with h | h
            · exact Or.inl (Finset.mem_insert_of_mem h)
            · rcases List.mem_cons.1 h with h2 | h2
              · exact Or.inl (by rw [h2]; exact Finset.mem_insert_self current r)
              · exact Or.inr (List.mem_append.2 (Or.inl h2))
        obtain ⟨h1, h2, h3, h4⟩ := ih (insert current r)
          (rest ++ (graphGet cg current).filter (fun c => decide (c ∉ insert current r)))
          hqu hrsub hfuel2 hinv2
        refine ⟨?_, ?_, h3, h4⟩
        · exact (Finset.subset_insert current r).trans h1
        · intro x hx
          rcases List.mem_cons.1 hx with h5 | h5
          · exact h1 (h5 ▸ Finset.mem_insert_self current r)
          · exact h2 x (List.mem_append.2 (Or.inl h5))

theorem calculate_reachable_spec (func : String) (cg : List (String × List String)) :
    func ∈ calculate_reachable_from func cg ∧
      (∀ s ∈ calculate_reachable_from func cg, ∀ c ∈ graphGet cg s,
        c ∈ calculate_reachable_from func cg) ∧
      calculate_reachable_from func cg ⊆ insert func (callUniv cg) := by
  have hK : ∀ s, (graphGet cg s).length < (cg.flatMap Prod.snd).length + 1 :=
    fun s => Nat.lt_succ_of_le (graphGet_length_le cg s)
  have hU : ∀ s, ∀ c ∈ graphGet cg s, c ∈ insert func (callUniv cg) :=
    fun s c hc => Finset.mem_insert_of_mem (graphGet_mem_callUniv cg s c hc)
  have h := bfsFuel_spec cg (insert func (callUniv cg)) ((cg.flatMap Prod.snd).length + 1)
    hK hU
    ((insert func (callUniv cg)).card * ((cg.flatMap Prod.snd).length + 1) + 1)
    ∅ [func]
    (by
      intro x hx
      rw [List.mem_singleton.1 hx]
      exact Finset.mem_insert_self func (callUniv cg))
    (Finset.empty_subset _)
    (by rw [Finset.sdiff_empty]; simp)
    (by intro s hs; simp at hs)
  obtain ⟨h1, h2, h3, h4⟩ := h
  unfold calculate_reachable_from
  exact ⟨h2 func (List.mem_singleton_self func), h3, h4⟩

/-! ## Sorting lemmas -/

theorem mem_insertByBytes (x y : Impact) (l : List Impact) :
    y ∈ insertByBytes x l ↔ y = x ∨ y ∈ l := by
  induction l with
  | nil => simp [insertByBytes]
  | cons z zs ih =>
    by_cases h : z.total_bytes < x.total_bytes
    · simp [insertByBytes, h]
    · simp only [insertByBytes, h, if_false, List.mem_cons, ih]
      tauto

theorem mem_sortImpacts (y : Impact) (l : List Impact) :
    y ∈ sortImpacts l ↔ y ∈ l := by
  have main : ∀ (l : List Impact) (acc : List Impact),
      y ∈ l.foldl (fun acc x => insertByBytes x acc) acc ↔ y ∈ acc ∨ y ∈ l := by
    intro l
    induction l with
    | nil => intro acc; simp
    | cons z zs ih =>
      intro acc
      simp only [List.foldl_cons, ih, mem_insertByBytes, List.mem_cons]
      tauto
  have h := main l []
  simp only [List.not_mem_nil, false_or] at h
  exact h

theorem pairwise_insertByBytes (x : Impact) (l : List Impact)
    (h : List.Pairwise (fun a b => b.total_bytes ≤ a.total_bytes) l) :
    List.Pairwise (fun a b => b.total_bytes ≤ a.total_bytes) (insertByBytes x l) := by
  induction l with
  | nil => simp [insertByBytes]
  | cons z zs ih =>
    rcases List.pairwise_cons.1 h with ⟨hz, hzs⟩
    by_cases hlt : z.total_bytes < x.total_bytes
    · rw [insertByBytes, if_pos hlt]
      refine List.pairwise_cons.2 ⟨?_, h⟩
      intro b hb
      rcases List.mem_cons.1 hb with h2 | h2
      · exact h2 ▸ Nat.le_of_lt hlt
      · exact (hz b h2).trans (Nat.le_of_lt hlt)
    · rw [insertByBytes, if_neg hlt]
      refine List.pairwise_cons.2 ⟨?_, ih hzs⟩
      intro b hb
      rcases (mem_insertByBytes x b zs).1 hb with h2 | h2
      · exact h2 ▸ Nat.le_of_not_lt hlt
      · exact hz b h2

theorem sortImpacts_pairwise (l : List Impact) :
    List.Pairwise (fun a b => b.total_bytes ≤ a.total_bytes) (sortImpacts l) := by
  have main : ∀ (l : List Impact) (acc : List Impact),
      List.Pairwise (fun a b => b.total_bytes ≤ a.total_bytes) acc →
      List.Pairwise (fun a b => b.total_bytes ≤ a.total_bytes)
        (l.foldl (fun acc x => insertByBytes x acc) acc) := by
    intro l
    induction l with
    | nil => intro acc h; exact h
    | cons z zs ih =>
      intro acc h
      exact ih (insertByBytes z acc) (pairwise_insertByBytes z acc h)
  exact main l [] (List.Pairwise.nil)

/-! ## Candidate-loop characterization -/

theorem foldl_filter_map_append {α β : Type} (f : α → Bool) (g : α → β) :
    ∀ (l : List α) (acc : List β),
      l.foldl (fun acc p => if f p then acc ++ [g p] else acc) acc
        = acc ++ (l.filter f).map g := by
  intro l
  induction l with
  | nil => intro acc; simp
  | cons p rest ih =>
    intro acc
    by_cases h : f p = true
    · simp only [List.foldl_cons, if_pos h, List.filter_cons, h, if_true, List.map_cons]
      rw [ih]
      simp
    · simp only [List.foldl_cons, if_neg h]
      rw [ih]
      simp only [List.filter_cons]
      rw [Bool.not_eq_true] at h
      rw [h]
      simp

theorem analyze_impact_eq (func_refs : List (String × List (String × Nat)))
    (sizes : List (String × Nat)) (disasm : String → Option String) :
    analyze_impact_impacts func_refs sizes disasm =
      sortImpacts ((func_refs.filter (fun p =>
          (sizes.map Prod.fst).contains p.1 &&
            decide (p.1 ∉ calculate_reachable_from "main"
              (build_call_graph (sizes.map Prod.fst) disasm).1))).map
        (fun p =>
          { function := p.1
            reachable_count := (calculate_reachable_from p.1
              (build_call_graph (sizes.map Prod.fst) disasm).1).card
            total_bytes := Finset.sum (calculate_reachable_from p.1
              (build_call_graph (sizes.map Prod.fst) disasm).1)
              (fun f => lookupD sizes f 0)
            references := p.2 })) := by
  simp only [analyze_impact_impacts]
  rw [foldl_filter_map_append]
  simp

theorem mem_analyze_impact (func_refs : List (String × List (String × Nat)))
    (sizes : List (String × Nat)) (disasm : String → Option String) (imp : Impact) :
    imp ∈ analyze_impact_impacts func_refs sizes disasm ↔
      ∃ p ∈ func_refs,
        ((sizes.map Prod.fst).contains p.1 &&
          decide (p.1 ∉ calculate_reachable_from "main"
            (build_call_graph (sizes.map Prod.fst) disasm).1)) = true ∧
        imp = { function := p.1
                reachable_count := (calculate_reachable_from p.1
                  (build_call_graph (sizes.map Prod.fst) disasm).1).card
                total_bytes := Finset.sum (calculate_reachable_from p.1
                  (build_call_graph (sizes.map Prod.fst) disasm).1)
                  (fun f => lookupD sizes f 0)
                references := p.2 } := by
  rw [analyze_impact_eq, mem_sortImpacts, List.mem_map]
  constructor
  · rintro ⟨p, hp, himp⟩
    rcases List.mem_filter.1 hp with ⟨hmem, hcond⟩
    exact ⟨p, hmem, hcond, himp.symm⟩
  · rintro ⟨p, hmem, hcond, himp⟩
    exact ⟨p, List.mem_filter.2 ⟨hmem, hcond⟩, himp.symm⟩

theorem callUniv_build_sub (symbols : List String) (disasm : String → Option String)
    (x : String) :
    x ∈ callUniv (build_call_graph symbols disasm).1 → x ∈ symbols := by
  intro h
  rw [build_call_graph_fst] at h
  simp only [callUniv, List.mem_toFinset, List.mem_flatMap] at h
  rcases h with ⟨p, hp, hx⟩
  rcases List.mem_map.1 hp with ⟨s, _, hps⟩
  rw [← hps] at hx
  exact (string_contains_iff symbols x).1 (get_calls_sound s symbols (disasm s) x hx).1

/-! ## Claim theorems -/

/-- C1: for every run, the candidate set produced by the impact loop is
exactly the set of referenced identifiers that are present in the symbol
catalog and absent from `reachable(main)`: identifiers absent from the
catalog are dropped, and identifiers reachable from the entry root are
excluded from candidacy. -/
theorem c1_candidate_set (func_refs : List (String × List (String × Nat)))
    (sizes : List (String × Nat)) (disasm : String → Option String) (name : String) :
    (∃ imp ∈ analyze_impact_impacts func_refs sizes disasm, imp.function = name) ↔
      name ∈ func_refs.map Prod.fst ∧
        (sizes.map Prod.fst).contains name = true ∧
        name ∉ calculate_reachable_from "main"
          (build_call_graph (sizes.map Prod.fst) disasm).1 := by
  constructor
  · rintro ⟨imp, hmem, hfun⟩
    rcases (mem_analyze_impact func_refs sizes disasm imp).1 hmem with ⟨p, hp, hcond, himp⟩
    have hfn : p.1 = name := by rw [himp] at hfun; exact hfun
    simp only [Bool.and_eq_true] at hcond
    obtain ⟨hc, hnr⟩ := hcond
    rw [decide_eq_true_eq] at hnr
    exact ⟨hfn ▸ List.mem_map_of_mem Prod.fst hp, hfn ▸ hc, hfn ▸ hnr⟩
  · rintro ⟨href, hc, hnr⟩
    rcases List.mem_map.1 href with ⟨p, hp, hp1⟩
    refine ⟨_, (mem_analyze_impact func_refs sizes disasm _).2 ⟨p, hp, ?_, rfl⟩, hp1⟩
    rw [hp1]
    simp only [Bool.and_eq_true]
    exact ⟨hc, decide_eq_true hnr⟩

theorem c1_witness :
    ∃ imp ∈ analyze_impact_impacts demoRefs demoSizes demoDisasm, imp.function = "B" :=
  (c1_candidate_set demoRefs demoSizes demoDisasm "B").mpr (by decide)

/-- C2: for every root symbol name and every call graph, the reachable set
contains the root itself and is a fixed point of the call relation: every
callee of a member of the set is itself a member. -/
theorem c2_reachable_root_fixed_point (root : String) (cg : List (String × List String)) :
    root ∈ calculate_reachable_from root cg ∧
      ∀ s ∈ calculate_reachable_from root cg, ∀ c ∈ graphGet cg s,
        c ∈ calculate_reachable_from root cg :=
  ⟨(calculate_reachable_spec root cg).1, (calculate_reachable_spec root cg).2.1⟩

theorem c2_witness :
    "C" ∈ calculate_reachable_from "B" [("main", ["A"]), ("B", ["C"])] :=
  (c2_reachable_root_fixed_point "B" [("main", ["A"]), ("B", ["C"])]).2
    "B" (by decide) "C" (by decide)

/-- C3: every reported impact's `total_bytes` equals the sum of the catalog
sizes over the candidate's own reachable set, a value that depends only on
the candidate and the call graph (no state shared between candidates), and
every symbol summed over lies in the catalog. -/
theorem c3_total_bytes (func_refs : List (String × List (String × Nat)))
    (sizes : List (String × Nat)) (disasm : String → Option String) (imp : Impact)
    (h : imp ∈ analyze_impact_impacts func_refs sizes disasm) :
    imp.total_bytes = Finset.sum
        (calculate_reachable_from imp.function
          (build_call_graph (sizes.map Prod.fst) disasm).1)
        (fun f => lookupD sizes f 0) ∧
      ∀ f ∈ calculate_reachable_from imp.function
          (build_call_graph (sizes.map Prod.fst) disasm).1,
        f ∈ sizes.map Prod.fst := by
  rcases (mem_analyze_impact func_refs sizes disasm imp).1 h with ⟨p, hp, hcond, himp⟩
  simp only [Bool.and_eq_true] at hcond
  obtain ⟨hc, -⟩ := hcond
  subst himp
  constructor
  · rfl
  · intro f hf
    have hsub := (calculate_reachable_spec p.1
      (build_call_graph (sizes.map Prod.fst) disasm).1).2.2
    rcases Finset.mem_insert.1 (hsub hf) with h2 | h2
    · rw [h2]
      exact (string_contains_iff _ _).1 hc
    · exact callUniv_build_sub (sizes.map Prod.fst) disasm f h2

theorem c3_witness :
    (50 : Nat) = Finset.sum
        (calculate_reachable_from "B"
          (build_call_graph (demoSizes.map Prod.fst) demoDisasm).1)
        (fun f => lookupD demoSizes f 0) ∧
      ∀ f ∈ calculate_reachable_from "B"
          (build_call_graph (demoSizes.map Prod.fst) demoDisasm).1,
        f ∈ demoSizes.map Prod.fst :=
  c3_total_bytes demoRefs demoSizes demoDisasm
    { function := "B", reachable_count := 2, total_bytes := 50, references := [("x.c", 3)] }
    (by decide)

/-- C4: the output sequence of candidates is sorted by `total_bytes`
descending: whenever the entry at position `j` has strictly fewer total
bytes than the entry at position `i`, position `i` comes first. -/
theorem c4_ranking_monotonic (func_refs : List (String × List (String × Nat)))
    (sizes : List (String × Nat)) (disasm : String → Option String) (i j : Nat)
    (hi : i < (analyze_impact_impacts func_refs sizes disasm).length)
    (hj : j < (analyze_impact_impacts func_refs sizes disasm).length)
    (hlt : ((analyze_impact_impacts func_refs sizes disasm).getD j
        { function := "", reachable_count := 0, total_bytes := 0, references := [] }).total_bytes
      < ((analyze_impact_impacts func_refs sizes disasm).getD i
        { function := "", reachable_count := 0, total_bytes := 0, references := [] }).total_bytes) :
    i < j := by
  have hpw : List.Pairwise (fun a b => b.total_bytes ≤ a.total_bytes)
      (analyze_impact_impacts func_refs sizes disasm) := by
    rw [analyze_impact_eq]
    exact sortImpacts_pairwise _
  rw [List.pairwise_iff_get] at hpw
  rw [List.getD_eq_get _ _ hi, List.getD_eq_get _ _ hj] at hlt
  by_contra hij
  rcases Nat.lt_or_eq_of_le (Nat.le_of_not_lt hij) with hji | hji
  · have h2 := hpw ⟨j, hj⟩ ⟨i, hi⟩ (Fin.mk_lt_mk.2 hji)
    omega
  · subst hji
    exact absurd hlt (lt_irrefl _)

theorem c4_witness : (0 : Nat) < 1 :=
  c4_ranking_monotonic demoRefs demoSizes demoDisasm 0 1 (by decide) (by decide) (by decide)

/-- C9: every edge of the constructed call graph is well-formed: no entry
lists itself as a callee, and every callee is a symbol of the catalog. -/
theorem c9_wellformed_edges (symbols : List String) (disasm : String → Option String)
    (p : String × List String) (h : p ∈ (build_call_graph symbols disasm).1) :
    p.1 ∉ p.2 ∧ ∀ c ∈ p.2, symbols.contains c = true := by
  rw [build_call_graph_fst] at h
  rcases List.mem_map.1 h with ⟨s, _, hps⟩
  subst hps
  constructor
  · intro hmem
    exact (get_calls_sound s symbols (disasm s) s hmem).2 rfl
  · intro c hc
    exact (get_calls_sound s symbols (disasm s) c hc).1

theorem c9_witness :
    ("f" : String) ∉ (["g"] : List String) ∧
      ∀ c ∈ (["g"] : List String), (["f", "g"] : List String).contains c = true :=
  c9_wellformed_edges ["f", "g"]
    (fun s => if s == "f" then some "callq 10 <g>" else some "")
    ("f", ["g"]) (by decide)

/-- C10: every reference the scanner produces has an identifier of at least
two characters (the regex demands a start character plus at least one
continuation character), so a single-character occurrence such as `&f`
never yields a reference and never becomes a candidate. -/
theorem c10_identifier_min_length (lines : List GrepLine) (sizes : List (String × Nat))
    (disasm : String → Option String) (p : String × List (String × Nat)) (imp : Impact) :
    (p ∈ find_function_pointers lines → 2 ≤ p.1.length) ∧
      (imp ∈ analyze_impact_impacts (find_function_pointers lines) sizes disasm →
        2 ≤ imp.function.length) := by
  have hkey : ∀ q : String × List (String × Nat),
      q ∈ find_function_pointers lines → 2 ≤ q.1.length := by
    intro q hq
    rcases (mem_ffp_source lines q hq).2 with ⟨l, _, hscan⟩
    exact (scanRefs_sound l.content.data q.1 hscan).1
  refine ⟨hkey p, ?_⟩
  intro h
  rcases (mem_analyze_impact _ _ _ _).1 h with ⟨q, hq, _, himp⟩
  rw [himp]
  exact hkey q hq

theorem c10_witness : 2 ≤ ("foo" : String).length :=
  (c10_identifier_min_length [⟨"a.c", 1, "x = &foo;"⟩] [] (fun _ => none)
      ("foo", [("a.c", 1)])
      { function := "", reachable_count := 0, total_bytes := 0, references := [] }).1
    (by decide)

/-- C5 counterexample: the identifier `_1` consists solely of digits and
underscore — by the claim it should be discarded and never become a
candidate — yet the scanner keeps it (`"_1".isupper()` is false in Python
because the string has no cased character) and it becomes a candidate when
a catalog symbol of that name exists. -/
theorem c5_counterexample :
    analyze_impact_impacts (find_function_pointers [⟨"a.c", 1, "p = &_1;"⟩])
        [("_1", 5)] (fun _ => none)
      = [{ function := "_1", reachable_count := 1, total_bytes := 5,
           references := [("a.c", 1)] }] ∧
      specAllUpperDigitUnderscore "_1" = true := by
  constructor
  · decide
  · decide

/-- C5 amended: the scanner discards an identifier exactly when every
character is an upper-case ASCII letter, digit, or underscore AND at least
one character is a letter (Python `str.isupper` needs a cased character);
such an identifier is never a candidate.  An identifier with no letters at
all (digits and underscores only) is kept, not discarded. -/
theorem c5_filter_amended (lines : List GrepLine) (sizes : List (String × Nat))
    (disasm : String → Option String) (name : String) :
    (name.data.all isIdentContCh = true →
      pyIsupper name = (specAllUpperDigitUnderscore name && specHasLetter name)) ∧
      ((specAllUpperDigitUnderscore name && specHasLetter name) = true →
        ∀ imp ∈ analyze_impact_impacts (find_function_pointers lines) sizes disasm,
          imp.function ≠ name) := by
  refine ⟨fun h => pyIsupper_eq_spec name h, ?_⟩
  intro hspec imp himp hfn
  simp only [Bool.and_eq_true] at hspec
  have hup : pyIsupper name = true := spec_implies_pyIsupper name hspec.1 hspec.2
  rcases (mem_analyze_impact _ _ _ _).1 himp with ⟨q, hq, _, himp2⟩
  have hq1 : q.1 = name := by rw [himp2] at hfn; exact hfn
  have hfalse := (mem_ffp_source lines q hq).1
  rw [hq1, hup] at hfalse
  exact Bool.noConfusion hfalse

theorem c5_witness :
    pyIsupper "FOO" = (specAllUpperDigitUnderscore "FOO" && specHasLetter "FOO") :=
  (c5_filter_amended [] [] (fun _ => none) "FOO").1 (by decide)

/-- C6 counterexample: a catalog whose only symbol carries an explicit,
genuine size of 1 byte is indistinguishable from one whose size was
unknown, and the byte-mode flag classifies it as having no size
information: the mode decision misclassifies an all-1-byte catalog. -/
theorem c6_counterexample :
    get_all_symbols [["1000", "1", "T", "f"]] = [("f", 1)] ∧
      get_all_symbols [["1000", "T", "f"]] = [("f", 1)] ∧
      has_sizes (get_all_symbols [["1000", "1", "T", "f"]]) = false := by
  refine ⟨by decide, by decide, by decide⟩

/-- C6 amended: when a symbol's size is unknown the catalog records the
sentinel 1, but the sentinel is not distinguishable from a genuine 1-byte
function: an `nm` line with an explicit size of 1 yields the same catalog
entry as a line with no size field, and the byte-mode flag — computed from
the recorded values alone as "some size exceeds 1" — puts a catalog of
genuine 1-byte symbols in unknown-size mode. -/
theorem c6_sentinel_indistinguishable (addr name : String) :
    get_all_symbols [[addr, "1", "T", name]] = get_all_symbols [[addr, "T", name]] ∧
      has_sizes (get_all_symbols [[addr, "1", "T", name]]) = false := by
  constructor
  · rfl
  · rfl

/-- C7 counterexample: with the grep traversal visiting `b.c` before
`a.c`, the emitted reference list for `foo` is in traversal order, not
sorted by `(file, line)`, and the reported first reference is `b.c:1`
although `a.c:1` is also a reference and `a.c` sorts first. -/
theorem c7_counterexample :
    lookupRefs (find_function_pointers
        [⟨"b.c", 1, "x = &foo;"⟩, ⟨"a.c", 1, "y = &foo;"⟩]) "foo"
      = [("b.c", 1), ("a.c", 1)] ∧
      ("a.c" : String) < "b.c" ∧
      ((analyze_impact_impacts (find_function_pointers
            [⟨"b.c", 1, "x = &foo;"⟩, ⟨"a.c", 1, "y = &foo;"⟩]) [("foo", 7)]
          (fun _ => none)).getD 0
        { function := "", reachable_count := 0, total_bytes := 0,
          references := [] }).references.head? = some ("b.c", 1) := by
  refine ⟨by decide, ?_, by decide⟩
  rw [String.lt_iff_toList_lt]
  decide

/-- C7 amended: the scanner emits each identifier's references in the
order of the underlying grep output (traversal order, not re-sorted), and
the reference list attached to each candidate — whose head the report
prints as the first reference — is exactly that traversal-order list. -/
theorem c7_grep_order (lines : List GrepLine) (name : String)
    (sizes : List (String × Nat)) (disasm : String → Option String) (imp : Impact) :
    lookupRefs (find_function_pointers lines) name = grepOrderOccurrences name lines ∧
      (∀ locs, (name, locs) ∈ find_function_pointers lines →
        locs = grepOrderOccurrences name lines) ∧
      (imp ∈ analyze_impact_impacts (find_function_pointers lines) sizes disasm →
        imp.references = grepOrderOccurrences imp.function lines) := by
  refine ⟨lookupRefs_ffp lines name, ?_, ?_⟩
  · intro locs hmem
    rw [mem_lookupRefs_of_wf (find_function_pointers lines) (ffp_keys_nodup lines)
      name locs hmem]
    exact lookupRefs_ffp lines name
  · intro h
    rcases (mem_analyze_impact _ _ _ _).1 h with ⟨q, hq, _, himp⟩
    rw [himp]
    show q.2 = grepOrderOccurrences q.1 lines
    rw [mem_lookupRefs_of_wf (find_function_pointers lines) (ffp_keys_nodup lines)
      q.1 q.2 hq]
    exact lookupRefs_ffp lines q.1

theorem c7_witness :
    ({ function := "foo", reachable_count := 1, total_bytes := 7,
        references := [("b.c", 1), ("a.c", 1)] } : Impact).references
      = grepOrderOccurrences "foo" [⟨"b.c", 1, "x = &foo;"⟩, ⟨"a.c", 1, "y = &foo;"⟩] :=
  (c7_grep_order [⟨"b.c", 1, "x = &foo;"⟩, ⟨"a.c", 1, "y = &foo;"⟩] "foo" [("foo", 7)]
      (fun _ => none)
      { function := "foo", reachable_count := 1, total_bytes := 7,
        references := [("b.c", 1), ("a.c", 1)] }).2.2 (by decide)

/-- C8 counterexample: a run where the disassembly of `f` fails emits
exactly the same stderr messages as a fully successful run — no diagnostic
is emitted for the failure — and the reachable set of another symbol `g`
(which calls `f`) differs from the successful run, so reachability
results of other symbols are not unaffected. -/
theorem c8_counterexample :
    (build_call_graph ["g", "f", "h"]
        (fun s => if s == "f" then none
          else if s == "g" then some "callq 1 <f>" else some "")).2
      = (build_call_graph ["g", "f", "h"]
        (fun s => if s == "g" then some "callq 1 <f>"
          else if s == "f" then some "callq 1 <h>" else some "")).2 ∧
      graphGet (build_call_graph ["g", "f", "h"]
          (fun s => if s == "f" then none
            else if s == "g" then some "callq 1 <f>" else some "")).1 "f" = [] ∧
      calculate_reachable_from "g" (build_call_graph ["g", "f", "h"]
          (fun s => if s == "f" then none
            else if s == "g" then some "callq 1 <f>" else some "")).1
        ≠ calculate_reachable_from "g" (build_call_graph ["g", "f", "h"]
          (fun s => if s == "g" then some "callq 1 <f>"
            else if s == "f" then some "callq 1 <h>" else some "")).1 := by
  refine ⟨rfl, by decide, by decide⟩

/-- C8 amended: when the disassembly of one symbol fails or times out, that
symbol's call set is empty (a leaf) and the run continues: every other
symbol's call set is computed exactly as in a run where that symbol
succeeds, and the stderr output is identical — no diagnostic of the
failure is emitted.  (Reachable sets of symbols that call the failed one
may shrink; see the counterexample.) -/
theorem c8_failsoft (symbols : List String) (d d2 : String → Option String) (f : String)
    (hfail : d2 f = none) (hsame : ∀ g, g ≠ f → d2 g = d g)
    (hmem : symbols.contains f = true) :
    graphGet (build_call_graph symbols d2).1 f = [] ∧
      (∀ g, g ≠ f → graphGet (build_call_graph symbols d2).1 g
        = graphGet (build_call_graph symbols d).1 g) ∧
      (build_call_graph symbols d2).2 = (build_call_graph symbols d).2 := by
  refine ⟨?_, ?_, rfl⟩
  · rw [graphGet_build, if_pos hmem, hfail]
    rfl
  · intro g hg
    rw [graphGet_build, graphGet_build, hsame g hg]

theorem c8_witness :
    graphGet (build_call_graph ["g", "f", "h"]
        (fun s => if s == "f" then none
          else if s == "g" then some "callq 1 <f>" else some "")).1 "f" = [] :=
  (c8_failsoft ["g", "f", "h"]
      (fun s => if s == "g" then some "callq 1 <f>"
        else if s == "f" then some "callq 1 <h>" else some "")
      (fun s => if s == "f" then none
        else if s == "g" then some "callq 1 <f>" else some "")
      "f" rfl
      (by
        intro g hg
        simp [hg])
      (by decide)).1
